import Mathlib

set_option maxHeartbeats 1000000

namespace Talk

/- # Shallow embedding of the talk transport library

The definitions below translate, file by file, the parts of the source that
the verified properties are about: the atomic lender
(src/sync/lenders/atomic_lender.rs), the rendezvous connector
(src/link/rendezvous/connector.rs), the plain and secure senders
(src/net/plain_sender.rs, src/net/secure_sender.rs) and the plex connector
pool (src/net/plex/plex_connector.rs). External collaborators (the socket,
the directory client, the cipher, the multiplex internals) enter as oracle
arguments or as abstract state records. -/

/- ## Atomic lender (src/sync/lenders/atomic_lender.rs) -/

/-- The state held under the mutex of an AtomicLender: enum State. -/
inductive LenderState (α : Type) where
  | available (inner : α)
  | lent
deriving DecidableEq, Repr

/-- Result of a successful restore: the new state, and whether notify_one on
the condvar was reached (the panic branch unwinds before notify_one). -/
structure RestoreOut (α : Type) where
  state : LenderState α
  notified : Bool
deriving DecidableEq, Repr

/-- AtomicLender::restore. While Lent it stores the value back and calls
notify_one; while Available it panics (modelled as Except.error carrying the
panic message). -/
def restore (s : LenderState α) (v : α) : Except String (RestoreOut α) :=
  match s with
  | .lent => .ok ⟨.available v, true⟩
  | .available _ =>
      .error "attempted to AtomicLender restore more than once without AtomicLender take"

/-- AtomicLender::try_take. Never blocks and never panics: it swaps Lent in
and returns the value when one was available. -/
def tryTake (s : LenderState α) : Except String (Option α × LenderState α) :=
  match s with
  | .available a => .ok (some a, .lent)
  | .lent => .ok (none, .lent)

/-- AtomicLender::take. The condvar wait is modelled by the none outcome:
while the state is Lent the caller keeps blocking (no panic); once Available
the value is swapped out. The match arm behind the swap that would panic is
unreachable because wait_while only returns on Available. -/
def takeStep (s : LenderState α) : Except String (Option (α × LenderState α)) :=
  match s with
  | .available a => .ok (some (a, .lent))
  | .lent => .ok none

/- ### Interleaved executions of take/restore workers. A configuration is
the lender state plus, for each of the n worker tasks, the value it
currently holds (workers restore what they took). -/

/-- Configuration of the lender plus the n workers of the stress scenario. -/
structure LenderSys (n : Nat) (α : Type) where
  lender : LenderState α
  holding : Fin n → Option α

/-- One atomic event: worker i completes a take, or worker i restores the
value it holds. Each event is atomic because the source performs the whole
operation under the one state mutex. -/
inductive LEvent (n : Nat) where
  | take (i : Fin n)
  | restore (i : Fin n)

/-- Initial configuration: the lender is Available(v0), no worker holds. -/
def linit (n : Nat) (v0 : α) : LenderSys n α :=
  ⟨.available v0, fun _ => none⟩

/-- One scheduler step. A take completes only when the lender is Available
(otherwise the worker keeps blocking: no step). A restore by worker i hands
back exactly the value i holds, through the source restore function. -/
def lstep (c : LenderSys n α) : LEvent n → Option (LenderSys n α)
  | .take i =>
      match c.lender with
      | .available a => some ⟨.lent, Function.update c.holding i (some a)⟩
      | .lent => none
  | .restore i =>
      match c.holding i with
      | some a =>
          match restore c.lender a with
          | .ok out => some ⟨out.state, Function.update c.holding i none⟩
          | .error _ => none
      | none => none

/-- Run an arbitrary interleaving: disabled events leave the configuration
unchanged (the worker simply has not been scheduled to completion). -/
def lrun (c : LenderSys n α) (evs : List (LEvent n)) : LenderSys n α :=
  evs.foldl (fun c e => (lstep c e).getD c) c

/-- The hand-off invariant: either the lender is Available holding exactly
the initial value and no worker holds anything, or the lender is Lent and
exactly one worker holds exactly the initial value. -/
def LInv (v0 : α) (c : LenderSys n α) : Prop :=
  (c.lender = .available v0 ∧ ∀ i, c.holding i = none) ∨
  (c.lender = .lent ∧ ∃ i, c.holding i = some v0 ∧ ∀ j, j ≠ i → c.holding j = none)

/- ## Rendezvous connector (src/link/rendezvous/connector.rs) -/

/-- Network addresses, abstractly (SocketAddr in the source). -/
abbrev Addr := Nat

/-- Peer identities, abstractly (the PublicKey root in the source). -/
abbrev Identity := Nat

/-- Outcome of dialing one address, upgrading to a secure connection and
authenticating: the oracle summarising the Transport and the handshake. On
success it carries the identity the peer keycard derives. -/
inductive DialOutcome where
  | ok (keycardRoot : Identity)
  | connFail
  | secureFail
  | authFail
deriving DecidableEq, Repr

/-- The rendezvous ConnectorError variants, as constructed in connector.rs
and listed by the spec. -/
inductive ConnectorError where
  | addressUnknown
  | connectionFailed
  | secureFailed
  | authenticateFailed
  | unexpectedRemote (remote : Identity)
deriving DecidableEq, Repr

/-- A SecureConnection, abstractly: the address it was dialed at and the
authenticated remote identity. -/
structure SecureConnection where
  addr : Addr
  remote : Identity
deriving DecidableEq, Repr

/-- Connector::attempt. Reads the cached address (AddressUnknown when the
cache has none), dials it, secures and authenticates (each failure mapped to
its ConnectorError), then compares the keycard root with the requested one:
equal returns the connection, different fails with UnexpectedRemote. -/
def attempt (root : Identity) (dial : Addr → DialOutcome) (cache : Option Addr) :
    Except ConnectorError SecureConnection :=
  match cache with
  | none => .error .addressUnknown
  | some address =>
      match dial address with
      | .connFail => .error .connectionFailed
      | .secureFail => .error .secureFailed
      | .authFail => .error .authenticateFailed
      | .ok j => if j = root then .ok ⟨address, j⟩ else .error (.unexpectedRemote j)

/-- Connector::refresh. stale is the cached address; fresh is the Directory
answer when the query succeeds, else stale. When fresh differs from stale
the cache is overwritten with fresh and true is returned, else false.
Returns the new cache contents together with the changed flag. -/
def refresh (cache : Option Addr) (dirAnswer : Option Addr) : Option Addr × Bool :=
  let stale := cache
  let fresh := dirAnswer.or stale
  if fresh ≠ stale then (fresh, true) else (stale, false)

/-- Connector::connect, the retry loop: attempt, and return the result as
soon as it succeeds or refresh reports no change; otherwise loop. Each
Directory query consumes one answer of the dir list (none: the query
failed); an exhausted list behaves as a failing query. Returns the result,
the final cache contents and the number of attempts performed. -/
def connect (root : Identity) (dial : Addr → DialOutcome) :
    Option Addr → List (Option Addr) →
      Except ConnectorError SecureConnection × Option Addr × Nat
  | cache, [] =>
      match attempt root dial cache with
      | .ok c => (.ok c, cache, 1)
      | .error e => (.error e, cache, 1)
  | cache, d :: rest =>
      match attempt root dial cache with
      | .ok c => (.ok c, cache, 1)
      | .error e =>
          let fr := refresh cache d
          if fr.2 then
            let r := connect root dial fr.1 rest
            (r.1, r.2.1, r.2.2 + 1)
          else
            (.error e, fr.1, 1)

/-- A dial oracle whose every connection attempt fails at the TCP step. -/
def dialConnFail : Addr → DialOutcome := fun _ => .connFail

/-- A dial oracle whose every handshake fails at the authenticate step. -/
def dialAuthFail : Addr → DialOutcome := fun _ => .authFail

/-- A dial oracle behind whose every address sits the peer of identity j. -/
def dialPeer (j : Identity) : Addr → DialOutcome := fun _ => .ok j

/- ## Unit, plain and secure senders (src/net/plain_sender.rs,
src/net/secure_sender.rs) -/

/-- SenderSettings: the optional per-flush send timeout. -/
structure SenderSettings where
  sendTimeout : Option Nat
deriving DecidableEq, Repr

/-- PlainConnectionError variants constructed by PlainSender::send. -/
inductive PlainConnectionError where
  | serializeFailed
  | sendTimeout
  | writeFailed
deriving DecidableEq, Repr

/-- SecureConnectionError variants constructed by SecureSender::send and
send_plain. -/
inductive SecureConnectionError where
  | encryptFailed
  | macComputeFailed
  | writeFailed
deriving DecidableEq, Repr

/-- Modelled from the spec: the UnitSender (not under src/) holds an
internal byte buffer (as_vec) and, for observation, the bytes already
written to the socket. -/
structure UnitSender where
  buffer : List Nat
  socket : List Nat
deriving DecidableEq, Repr

/-- The four big-endian bytes of a u32 length header. -/
def u32be (len : Nat) : List Nat :=
  [len / 2 ^ 24 % 256, len / 2 ^ 16 % 256, len / 2 ^ 8 % 256, len % 256]

/-- Modelled from the spec: UnitSender::flush (not under src/) writes the
u32 big-endian length header and the buffered payload to the socket in one
pass, then clears the buffer. -/
def UnitSender.flush (u : UnitSender) : UnitSender :=
  ⟨[], u.socket ++ u32be u.buffer.length ++ u.buffer⟩

/-- Modelled from the spec: time::optional_timeout (not under src/) bounds a
future by the optional deadline: with none it never times out, with some t
it elapses when the flush takes longer than t. -/
def timesOut (timeout : Option Nat) (flushTime : Nat) : Bool :=
  match timeout with
  | none => false
  | some t => t < flushTime

/-- PlainSender::send. bincode serialize_into appends into the buffer (or
fails: serialized = none, and nothing further runs), then the flush future
runs under optional_timeout with the configured send timeout: an elapsed
deadline surfaces SendTimeout, an I/O failure surfaces write_failed,
otherwise the frame reaches the socket. The Bool records whether the flush
was invoked. -/
def plainSend (settings : SenderSettings) (serialized : Option (List Nat))
    (flushTime : Nat) (flushOk : Bool) (u : UnitSender) :
    Except PlainConnectionError Unit × UnitSender × Bool :=
  match serialized with
  | none => (.error .serializeFailed, u, false)
  | some bytes =>
      let u1 : UnitSender := ⟨u.buffer ++ bytes, u.socket⟩
      if timesOut settings.sendTimeout flushTime then
        (.error .sendTimeout, u1, true)
      else if flushOk then
        (.ok (), u1.flush, true)
      else
        (.error .writeFailed, u1, true)

/-- SecureSender::send. channel encrypt_into appends the sealed bytes into
the buffer (or fails), then the flush is awaited directly: the source wraps
it in no optional_timeout, so the result is independent of how long the
flush takes (the first Nat argument is ignored) and no deadline error can
arise. -/
def secureSend (encrypted : Option (List Nat)) (_flushTime : Nat) (flushOk : Bool)
    (u : UnitSender) : Except SecureConnectionError Unit × UnitSender × Bool :=
  match encrypted with
  | none => (.error .encryptFailed, u, false)
  | some bytes =>
      let u1 : UnitSender := ⟨u.buffer ++ bytes, u.socket⟩
      if flushOk then (.ok (), u1.flush, true) else (.error .writeFailed, u1, true)

/- ## Plex connector pool (src/net/plex/plex_connector.rs) -/

/-- Modelled from the spec: the observable state of one ConnectMultiplex
(the type lives outside src/): its liveness (is_alive), the number of
plexes it currently manages (plex_count), and how many Ping frames it was
asked to emit. -/
structure CM where
  alive : Bool
  plexCount : Nat
  pings : Nat
deriving DecidableEq, Repr

/-- Modelled from the spec: ConnectMultiplex::ping emits one Ping frame. -/
def CM.ping (m : CM) : CM :=
  { m with pings := m.pings + 1 }

/-- Modelled from the spec: ConnectMultiplex::connect hands out a new Plex
on the multiplex, raising its plex count by one. -/
def CM.connectPlex (m : CM) : CM :=
  { m with plexCount := m.plexCount + 1 }

/-- Modelled from the spec: the ConnectMultiplex of a freshly dialed secure
connection (Multiplex::new, then split): alive, managing no plexes yet. -/
def newMultiplex : CM := ⟨true, 0, 0⟩

/-- The accumulator pass of Rust Iterator::min_by_key: a later element
replaces the current minimum only when its key is strictly smaller, so the
earliest minimum wins. Carries the index of the current minimum. -/
def minByAux (f : CM → Nat) : List CM → Nat → Nat × CM → Nat × CM
  | [], _, best => best
  | x :: xs, i, best =>
      minByAux f xs (i + 1) (if f x < f best.2 then (i, x) else best)

/-- Rust Iterator::min_by_key: index and value of the first element with
minimal key (none on the empty list). -/
def minByKey (f : CM → Nat) : List CM → Option (Nat × CM)
  | [] => none
  | x :: xs => some (minByAux f xs 1 (0, x))

/-- r is the index and value of the first minimum of l under the key f: the
index is in range and holds r.2, every element of l has a key at least
f r.2, and every element before the index has a strictly larger key. -/
def FirstMinAt (f : CM → Nat) (l : List CM) (r : Nat × CM) : Prop :=
  ∃ h : r.1 < l.length,
    l.get ⟨r.1, h⟩ = r.2 ∧
    (∀ j : Fin l.length, f r.2 ≤ f (l.get j)) ∧
    (∀ j : Fin l.length, (j : Nat) < r.1 → f r.2 < f (l.get j))

/-- The outcome of PlexConnector::connect on the per-identity list: the
source panics (unwrap of min_by_key on an empty list), fails the dial, or
returns a plex from some multiplex, together with the updated list and
whether a new secure connection was dialed. -/
inductive ConnectResult where
  | panicked
  | failed (pool : List CM)
  | ok (plexFrom : CM) (pool : List CM) (dialed : Bool)
deriving DecidableEq, Repr

/-- PlexConnector::connect for one remote identity. The dead multiplexes
are pruned first (retain is_alive: the mutation persists on every path).
When the remaining count is strictly below connections_per_remote, a new
connection is dialed (dialOk says whether the underlying connector
succeeded) and a plex is taken from the fresh multiplex pushed at the end;
otherwise no dial happens and a plex is taken from the multiplex with the
smallest plex count, earliest first on ties. -/
def plexConnect (cap : Nat) (dialOk : Bool) (ms : List CM) : ConnectResult :=
  let pruned := ms.filter (fun m => m.alive)
  if pruned.length < cap then
    if dialOk then
      let m := CM.connectPlex newMultiplex
      .ok m (pruned ++ [m]) true
    else .failed pruned
  else
    match minByKey (fun m => m.plexCount) pruned with
    | none => .panicked
    | some im => .ok (CM.connectPlex im.2) (pruned.set im.1 (CM.connectPlex im.2)) false

/-- One per-identity pass of PlexConnector::keep_alive: prune the dead
multiplexes, then ping every survivor. -/
def tickList (ms : List CM) : List CM :=
  (ms.filter (fun m => m.alive)).map CM.ping

/-- Pool::prune: the retain closure keeps an entry when the async lock of
its list cannot be taken (try_lock fails: another task holds it) or the
list of multiplexes is nonempty. -/
def poolPrune (locked : Identity → Bool) (pool : List (Identity × List CM)) :
    List (Identity × List CM) :=
  pool.filter (fun e => locked e.1 || !e.2.isEmpty)

/-- One tick of PlexConnector::keep_alive over the whole pool: every
list of every identity is pruned of dead multiplexes and each survivor is pinged;
then Pool::prune drops the identities whose list is empty. -/
def keepAliveTick (locked : Identity → Bool) (pool : List (Identity × List CM)) :
    List (Identity × List CM) :=
  poolPrune locked (pool.map (fun e => (e.1, tickList e.2)))

/-- The per-identity list after one connect call. On the panic path the
retain ran before the unwrap aborted, so the list is the pruned one. -/
def afterConnect (cap : Nat) (dialOk : Bool) (ms : List CM) : List CM :=
  match plexConnect cap dialOk ms with
  | .panicked => ms.filter (fun m => m.alive)
  | .failed p => p
  | .ok _ p _ => p

/-- How many multiplexes of the list are alive. -/
def aliveCount (ms : List CM) : Nat :=
  (ms.filter (fun m => m.alive)).length

/-- An environment step: multiplexes may die and their plex or ping counts
may change, but no environment step brings a dead multiplex back to life or
adds one. -/
def Degrades (ms ms2 : List CM) : Prop :=
  List.Forall₂ (fun a b => b.alive = true → a.alive = true) ms ms2

/-- The per-identity list states reachable in a pool configured with cap
connections_per_remote: initially absent (the empty list), then closed
under connect calls, keep-alive passes and environment degradation. -/
inductive PoolReach (cap : Nat) : List CM → Prop where
  | init : PoolReach cap []
  | connect (dialOk : Bool) {ms : List CM} (h : PoolReach cap ms) :
      PoolReach cap (afterConnect cap dialOk ms)
  | tick {ms : List CM} (h : PoolReach cap ms) : PoolReach cap (tickList ms)
  | die {ms ms2 : List CM} (h : PoolReach cap ms) (hd : Degrades ms ms2) :
      PoolReach cap ms2

/-- A concrete per-identity list for witnessing: two live multiplexes tied
at the minimal plex count, one dead one, one busier one. -/
def msW : List CM := [⟨true, 5, 0⟩, ⟨false, 0, 0⟩, ⟨true, 3, 0⟩, ⟨true, 3, 9⟩]

/-- A concrete pool for witnessing the keep-alive tick. -/
def poolW : List (Identity × List CM) :=
  [(0, [⟨true, 1, 0⟩, ⟨false, 2, 0⟩]), (1, [⟨false, 0, 0⟩])]

/-- The lock oracle of a quiescent pool: no per-identity list is locked. -/
def noLock : Identity → Bool := fun _ => false

/- # Theorems -/

/- ## Atomic lender helper lemmas -/

theorem lstep_preserves {n : Nat} {α : Type} {v0 : α} {c : LenderSys n α}
    (h : LInv v0 c) (e : LEvent n) : LInv v0 ((lstep c e).getD c) := by
  cases e with
  | take i =>
      rcases h with ⟨hl, hh⟩ | ⟨hl, hh⟩
      · simp only [lstep, hl, Option.getD_some]
        refine Or.inr ⟨rfl, i, ?_, ?_⟩
        · simp [Function.update]
        · intro j hj
          simp [Function.update, hj, hh j]
      · simp only [lstep, hl, Option.getD_none]
        exact Or.inr ⟨hl, hh⟩
  | restore i =>
      rcases h with ⟨hl, hh⟩ | ⟨hl, j, hj, hrest⟩
      · simp only [lstep, hh i, Option.getD_none]
        exact Or.inl ⟨hl, hh⟩
      · by_cases hij : i = j
        · subst hij
          simp only [lstep, hj, hl, restore, Option.getD_some]
          refine Or.inl ⟨rfl, ?_⟩
          intro k
          by_cases hk : k = i
          · subst hk; simp [Function.update]
          · simp only [Function.update, dif_neg hk]
            exact hrest k hk
        · simp only [lstep, hrest i hij, Option.getD_none]
          exact Or.inr ⟨hl, j, hj, hrest⟩

theorem lrun_preserves {n : Nat} {α : Type} {v0 : α} {c : LenderSys n α}
    (h : LInv v0 c) (evs : List (LEvent n)) : LInv v0 (lrun c evs) := by
  induction evs generalizing c with
  | nil => exact h
  | cons e evs ih => exact ih (lstep_preserves h e)

/- ## Rendezvous connector helper lemmas -/

/-- If refresh reported a change, the cache now holds the Directory answer,
and refreshing again with the same answer reports no change. -/
theorem refresh_change {cache d : Option Addr} (h : (refresh cache d).2 = true) :
    (refresh cache d).1 = d ∧ refresh d d = (d, false) := by
  cases d with
  | none =>
      exfalso
      simp [refresh] at h
  | some x =>
      unfold refresh at h ⊢
      by_cases hx : some x = cache
      · simp [hx] at h
      · simp only [Option.or_some, ne_eq, hx, not_false_iff, if_true]
        simp

/-- If refresh reported no change, the cache is untouched. -/
theorem refresh_nochange {cache d : Option Addr} (h : (refresh cache d).2 = false) :
    (refresh cache d).1 = cache := by
  unfold refresh at h ⊢
  by_cases hx : d.or cache ≠ cache
  · simp [hx] at h
  · simp [hx]

/-- When the (next) Directory answer would leave the cache unchanged,
connect returns the first attempt result after exactly one attempt. -/
theorem connect_nochange (root : Identity) (dial : Addr → DialOutcome)
    (cache d : Option Addr) (n : Nat) (h : (refresh cache d).2 = false) :
    connect root dial cache (List.replicate n d) = (attempt root dial cache, cache, 1) := by
  cases n with
  | zero =>
      cases ha : attempt root dial cache <;> simp [connect, ha]
  | succ m =>
      cases ha : attempt root dial cache with
      | ok c => simp [List.replicate_succ, connect, ha]
      | error e =>
          simp only [List.replicate_succ, connect, ha, h, if_false, Bool.false_eq_true]
          exact congrArg
            (fun o => ((Except.error e : Except ConnectorError SecureConnection), o, 1))
            (refresh_nochange h)

/- ## Claim theorems: atomic lender -/

/-- Claim C7: restore(v) while Lent transitions the state to Available(v)
and reaches notify_one, waking one blocked taker; restore while Available
panics; and take and try_take can never panic, so restoring twice is the
only panic of the three operations. -/
theorem atomic_lender_restore_contract {α : Type} (v w : α) :
    restore LenderState.lent v = .ok ⟨.available v, true⟩ ∧
    (∃ msg, restore (LenderState.available w) v = .error msg) ∧
    (∀ s : LenderState α, ∃ r, takeStep s = .ok r) ∧
    (∀ s : LenderState α, ∃ r, tryTake s = .ok r) := by
  refine ⟨rfl, ⟨_, rfl⟩, ?_, ?_⟩ <;> intro s <;> cases s <;> exact ⟨_, rfl⟩

/-- Claim C7, witnessed at concrete values. -/
theorem atomic_lender_restore_contract_witness :
    restore LenderState.lent (1 : Nat) = .ok ⟨.available 1, true⟩ ∧
    (∃ msg, restore (LenderState.available (2 : Nat)) 1 = .error msg) ∧
    (∀ s : LenderState Nat, ∃ r, takeStep s = .ok r) ∧
    (∀ s : LenderState Nat, ∃ r, tryTake s = .ok r) :=
  atomic_lender_restore_contract 1 2

/-- Claim C8: across every interleaving of N workers that take and restore,
the inner value is preserved bit for bit: whatever a worker holds is the
initial value, at most one worker holds at any time, whatever the lender
stores is the initial value, and any take that completes hands out exactly
that value. -/
theorem atomic_lender_value_preserved {n : Nat} {α : Type} (v0 : α)
    (evs : List (LEvent n)) :
    (∀ i a, (lrun (linit n v0) evs).holding i = some a → a = v0) ∧
    (∀ i j a b, (lrun (linit n v0) evs).holding i = some a →
      (lrun (linit n v0) evs).holding j = some b → i = j) ∧
    (∀ a, (lrun (linit n v0) evs).lender = .available a → a = v0) ∧
    (∀ i c2, lstep (lrun (linit n v0) evs) (.take i) = some c2 →
      c2.holding i = some v0) := by
  have hinv : LInv v0 (lrun (linit n v0) evs) :=
    lrun_preserves (Or.inl ⟨rfl, fun _ => rfl⟩) evs
  rcases hinv with ⟨hl, hh⟩ | ⟨hl, k, hk, hrest⟩
  · refine ⟨?_, ?_, ?_, ?_⟩
    · intro i a hi
      rw [hh i] at hi
      exact absurd hi (by simp)
    · intro i j a b hi _
      rw [hh i] at hi
      exact absurd hi (by simp)
    · intro a ha
      rw [hl] at ha
      injection ha with h
      exact h.symm
    · intro i c2 hstep
      simp only [lstep, hl] at hstep
      injection hstep with h
      subst h
      simp [Function.update]
  · refine ⟨?_, ?_, ?_, ?_⟩
    · intro i a hi
      by_cases hik : i = k
      · subst hik
        rw [hk] at hi
        injection hi with h
        exact h.symm
      · rw [hrest i hik] at hi
        exact absurd hi (by simp)
    · intro i j a b hi hj
      by_cases hik : i = k
      · by_cases hjk : j = k
        · rw [hik, hjk]
        · rw [hrest j hjk] at hj
          exact absurd hj (by simp)
      · rw [hrest i hik] at hi
        exact absurd hi (by simp)
    · intro a ha
      rw [hl] at ha
      exact absurd ha (by simp)
    · intro i c2 hstep
      simp only [lstep, hl] at hstep
      exact Option.noConfusion hstep

/-- Claim C8, witnessed on a concrete interleaving of two workers. -/
theorem atomic_lender_value_preserved_witness :
    (∀ i a, (lrun (linit 2 (42 : Nat)) [.take 0, .restore 0, .take 1]).holding i = some a →
      a = 42) ∧
    (∀ i j a b,
      (lrun (linit 2 (42 : Nat)) [.take 0, .restore 0, .take 1]).holding i = some a →
      (lrun (linit 2 (42 : Nat)) [.take 0, .restore 0, .take 1]).holding j = some b →
      i = j) ∧
    (∀ a, (lrun (linit 2 (42 : Nat)) [.take 0, .restore 0, .take 1]).lender = .available a →
      a = 42) ∧
    (∀ i c2,
      lstep (lrun (linit 2 (42 : Nat)) [.take 0, .restore 0, .take 1]) (.take i) = some c2 →
      c2.holding i = some 42) :=
  atomic_lender_value_preserved 42 [.take 0, .restore 0, .take 1]

/- ## Claim theorems: rendezvous connector -/

/-- Claim C5: once the handshake authenticated a peer whose keycard derives
identity j, the attempt returns the established connection exactly when j is
the requested identity; a different identity fails the attempt with
UnexpectedRemote carrying the observed identity. -/
theorem attempt_identity_iff (root j : Identity) (a : Addr)
    (dial : Addr → DialOutcome) (hdial : dial a = .ok j) :
    (attempt root dial (some a) = .ok ⟨a, root⟩ ↔ j = root) ∧
    (∀ c, attempt root dial (some a) = .ok c → c = ⟨a, root⟩) ∧
    (j ≠ root → attempt root dial (some a) = .error (.unexpectedRemote j)) := by
  have ha : attempt root dial (some a)
      = if j = root then .ok ⟨a, j⟩ else .error (.unexpectedRemote j) := by
    simp [attempt, hdial]
  by_cases h : j = root
  · subst h
    simp [ha]
  · simp [ha, h]

/-- Claim C5, witnessed: requesting identity 5 of a peer presenting 9. -/
theorem attempt_identity_iff_witness :
    dialPeer 9 7 = .ok 9 ∧
    ((attempt 5 (dialPeer 9) (some 7) = .ok ⟨7, 5⟩ ↔ (9 : Identity) = 5) ∧
     (∀ c, attempt 5 (dialPeer 9) (some 7) = .ok c → c = ⟨7, 5⟩) ∧
     ((9 : Identity) ≠ 5 →
       attempt 5 (dialPeer 9) (some 7) = .error (.unexpectedRemote 9))) :=
  ⟨rfl, attempt_identity_iff 5 9 7 (dialPeer 9) rfl⟩

/-- Claim C9: when, after a failed attempt, the Directory query of refresh
itself fails, refresh falls back to the stale cached address, the cache
entry stays in place, refresh reports no change, and connect returns the
original attempt error after that single attempt. -/
theorem connect_directory_failure (root : Identity) (dial : Addr → DialOutcome)
    (cache : Option Addr) (e : ConnectorError) (rest : List (Option Addr))
    (hfail : attempt root dial cache = .error e) :
    refresh cache none = (cache, false) ∧
    connect root dial cache (none :: rest) = (.error e, cache, 1) := by
  have hr : refresh cache none = (cache, false) := by
    simp [refresh]
  refine ⟨hr, ?_⟩
  simp [connect, hfail, hr]

/-- Claim C9, witnessed: a cached address whose dial fails, then a failing
Directory query. -/
theorem connect_directory_failure_witness :
    attempt 0 dialConnFail (some 3) = .error .connectionFailed ∧
    (refresh (some 3) none = (some 3, false) ∧
     connect 0 dialConnFail (some 3) [none] = (.error .connectionFailed, some 3, 1)) :=
  ⟨rfl, connect_directory_failure 0 dialConnFail (some 3) .connectionFailed [] rfl⟩

/-- Claim C1, refuted as stated: with a cached address 0 and a Directory
returning a different fresh address on each of two re-queries, connect
performs three attempts, so the attempt that failed is retried more than
once. -/
theorem connect_three_attempts :
    (connect 0 dialConnFail (some 0) [some 1, some 2]).2.2 = 3 := rfl

/-- Claim C1 as amended: after a failed attempt the Connector re-queries the
Directory and retries exactly when the fresh address differs from the
cached one, returning the current attempt error when the fresh address
equals the stale one; it retries once per address change, so as long as
the Directory answer does not change between the re-queries of one connect
call, at most one retry happens (at most two attempts in total). -/
theorem connect_retry_policy (root : Identity) (dial : Addr → DialOutcome)
    (cache d : Option Addr) (n : Nat) :
    (connect root dial cache (List.replicate n d)).2.2 ≤ 2 ∧
    ((refresh cache d).2 = false →
      connect root dial cache (List.replicate n d) = (attempt root dial cache, cache, 1)) := by
  constructor
  · cases n with
    | zero => cases ha : attempt root dial cache <;> simp [connect, ha]
    | succ m =>
        cases ha : attempt root dial cache with
        | ok c => simp [List.replicate_succ, connect, ha]
        | error e =>
            by_cases hf : (refresh cache d).2 = true
            · obtain ⟨h1, h2⟩ := refresh_change hf
              have hrec := connect_nochange root dial d d m (by rw [h2])
              simp only [List.replicate_succ, connect, ha, hf, if_true]
              rw [h1, hrec]
            · rw [connect_nochange root dial cache d (m + 1) (by simpa using hf)]
              simp
  · intro h
    exact connect_nochange root dial cache d n h

/-- Claim C1 as amended, witnessed: an unchanging Directory answer equal to
the cached address, so the original error comes back after one attempt. -/
theorem connect_retry_policy_witness :
    (refresh (some 3) (some 3)).2 = false ∧
    (connect 5 dialAuthFail (some 3) (List.replicate 4 (some 3))).2.2 ≤ 2 ∧
    connect 5 dialAuthFail (some 3) (List.replicate 4 (some 3))
      = (attempt 5 dialAuthFail (some 3), some 3, 1) :=
  ⟨by decide, (connect_retry_policy 5 dialAuthFail (some 3) (some 3) 4).1,
    (connect_retry_policy 5 dialAuthFail (some 3) (some 3) 4).2 (by decide)⟩

/- ## Claim theorems: senders -/

/-- Claim C2, divergence witnessed in the code: a plain send whose flush
outlives the configured deadline surfaces SendTimeout, but a secure send is
awaited with no deadline at all: its outcome is independent of how long the
flush takes and is never a timeout error, whatever the settings say. -/
theorem secure_send_no_deadline (t ft : Nat) (bytes : List Nat) (flushOk : Bool)
    (u : UnitSender) (enc : Option (List Nat)) (hslow : t < ft) :
    (plainSend ⟨some t⟩ (some bytes) ft flushOk u).1 = .error .sendTimeout ∧
    secureSend enc ft flushOk u = secureSend enc 0 flushOk u ∧
    (∀ e, (secureSend enc ft flushOk u).1 = .error e →
      e = .encryptFailed ∨ e = .writeFailed) := by
  refine ⟨?_, rfl, ?_⟩
  · simp [plainSend, timesOut, hslow]
  · intro e he
    cases enc with
    | none => exact Or.inl (Except.error.inj he).symm
    | some bytes2 =>
        cases flushOk with
        | true => exact Except.noConfusion he
        | false => exact Or.inr (Except.error.inj he).symm

/-- Claim C2, witnessed at a deadline of 5 against a flush taking 10. -/
theorem secure_send_no_deadline_witness :
    5 < 10 ∧
    ((plainSend ⟨some 5⟩ (some [1]) 10 true ⟨[], []⟩).1 = .error .sendTimeout ∧
     secureSend (some [2]) 10 true ⟨[], []⟩ = secureSend (some [2]) 0 true ⟨[], []⟩ ∧
     (∀ e, (secureSend (some [2]) 10 true ⟨[], []⟩).1 = .error e →
       e = .encryptFailed ∨ e = .writeFailed)) :=
  ⟨by decide, secure_send_no_deadline 5 10 [1] true ⟨[], []⟩ (some [2]) (by decide)⟩

/-- Claim C10: when serialisation fails, PlainSender::send returns the
serialisation error with the flush never invoked and the sender untouched
(no byte reaches the socket); when serialisation succeeds and the flush
completes in time, the length-prefixed frame is appended to the socket. -/
theorem plain_send_serialize_before_flush (settings : SenderSettings)
    (bytes : List Nat) (flushTime : Nat) (flushOk : Bool) (u : UnitSender) :
    plainSend settings none flushTime flushOk u = (.error .serializeFailed, u, false) ∧
    (timesOut settings.sendTimeout flushTime = false → flushOk = true →
      plainSend settings (some bytes) flushTime flushOk u
        = (.ok (), UnitSender.flush ⟨u.buffer ++ bytes, u.socket⟩, true)) := by
  refine ⟨rfl, ?_⟩
  intro hto hok
  simp [plainSend, hto, hok]

/-- Claim C10, witnessed on a sender with one byte already on the socket. -/
theorem plain_send_serialize_before_flush_witness :
    plainSend ⟨none⟩ none 3 true ⟨[], [9]⟩ = (.error .serializeFailed, ⟨[], [9]⟩, false) ∧
    timesOut (none : Option Nat) 3 = false ∧
    plainSend ⟨none⟩ (some [1, 2]) 3 true ⟨[], [9]⟩
      = (.ok (), UnitSender.flush ⟨[] ++ [1, 2], [9]⟩, true) :=
  ⟨(plain_send_serialize_before_flush ⟨none⟩ [1, 2] 3 true ⟨[], [9]⟩).1, rfl,
    (plain_send_serialize_before_flush ⟨none⟩ [1, 2] 3 true ⟨[], [9]⟩).2 rfl rfl⟩

/- ## Plex connector helper lemmas -/

/-- The accumulator pass of min_by_key keeps the first minimum: running it
over the suffix of a list whose prefix it has summarised correctly yields
the first minimum of the whole list. -/
theorem minByAux_go (f : CM → Nat) :
    ∀ (xs pre : List CM) (b : Nat × CM), FirstMinAt f pre b →
      FirstMinAt f (pre ++ xs) (minByAux f xs pre.length b)
  | [], pre, b, hb => by simpa [minByAux] using hb
  | x :: xs, pre, b, hb => by
      obtain ⟨hblt, hbget, hbmin, hbfirst⟩ := hb
      have hstep : FirstMinAt f (pre ++ [x])
          (if f x < f b.2 then (pre.length, x) else b) := by
        by_cases hx : f x < f b.2
        · rw [if_pos hx]
          have hlen : pre.length < (pre ++ [x]).length := by simp
          refine ⟨hlen, ?_, ?_, ?_⟩
          · simp only [List.get_eq_getElem]
            rw [List.getElem_append_right (Nat.le_refl pre.length)]
            simp
          · intro j
            rcases Nat.lt_or_ge (j : Nat) pre.length with hlt | hge
            · have heq : (pre ++ [x]).get j = pre.get ⟨j, hlt⟩ := by
                simp only [List.get_eq_getElem]
                exact List.getElem_append_left hlt
              rw [heq]
              exact Nat.le_of_lt (Nat.lt_of_lt_of_le hx (hbmin ⟨j, hlt⟩))
            · have heq : (pre ++ [x]).get j = x := by
                simp only [List.get_eq_getElem]
                rw [List.getElem_append_right hge]
                simp
              rw [heq]
          · intro j hjlt
            have hlt : (j : Nat) < pre.length := hjlt
            have heq : (pre ++ [x]).get j = pre.get ⟨j, hlt⟩ := by
              simp only [List.get_eq_getElem]
              exact List.getElem_append_left hlt
            rw [heq]
            exact Nat.lt_of_lt_of_le hx (hbmin ⟨j, hlt⟩)
        · rw [if_neg hx]
          have hxle : f b.2 ≤ f x := Nat.le_of_not_lt hx
          have hlen : b.1 < (pre ++ [x]).length := by
            simp only [List.length_append, List.length_singleton]
            omega
          refine ⟨hlen, ?_, ?_, ?_⟩
          · simp only [List.get_eq_getElem]
            rw [List.getElem_append_left hblt]
            simpa only [List.get_eq_getElem] using hbget
          · intro j
            rcases Nat.lt_or_ge (j : Nat) pre.length with hlt | hge
            · have heq : (pre ++ [x]).get j = pre.get ⟨j, hlt⟩ := by
                simp only [List.get_eq_getElem]
                exact List.getElem_append_left hlt
              rw [heq]
              exact hbmin ⟨j, hlt⟩
            · have heq : (pre ++ [x]).get j = x := by
                simp only [List.get_eq_getElem]
                rw [List.getElem_append_right hge]
                simp
              rw [heq]
              exact hxle
          · intro j hjlt
            have hlt : (j : Nat) < pre.length := Nat.lt_of_lt_of_le hjlt (Nat.le_of_lt hblt)
            have heq : (pre ++ [x]).get j = pre.get ⟨j, hlt⟩ := by
              simp only [List.get_eq_getElem]
              exact List.getElem_append_left hlt
            rw [heq]
            exact hbfirst ⟨j, hlt⟩ hjlt
      have hrec := minByAux_go f xs (pre ++ [x])
        (if f x < f b.2 then (pre.length, x) else b) hstep
      have hl1 : (pre ++ [x]).length = pre.length + 1 := by simp
      rw [hl1, List.append_assoc, List.singleton_append] at hrec
      simpa [minByAux] using hrec

/-- Rust min_by_key returns the first element with the minimal key. -/
theorem minByKey_first_min (f : CM → Nat) (l : List CM) (r : Nat × CM)
    (h : minByKey f l = some r) : FirstMinAt f l r := by
  cases l with
  | nil => exact Option.noConfusion h
  | cons x xs =>
      have h0 : FirstMinAt f [x] (0, x) := by
        refine ⟨by simp, by simp, ?_, ?_⟩
        · intro j
          have hlen : ([x] : List CM).length = 1 := rfl
          have hj : (j : Nat) = 0 := by omega
          have heq : [x].get j = x := by
            simp [List.get_eq_getElem, hj]
          rw [heq]
        · intro j hjlt
          exact absurd (hjlt : (j : Nat) < 0) (by omega)
      have hgo := minByAux_go f xs [x] (0, x) h0
      have h2 : minByAux f xs 1 (0, x) = r := Option.some.inj h
      rw [← h2]
      simpa using hgo

/-- Pruning twice counts the same live multiplexes. -/
theorem aliveCount_filter (ms : List CM) :
    aliveCount (ms.filter (fun m => m.alive)) = aliveCount ms := by
  simp [aliveCount, List.filter_filter]

/-- On a list whose members are all alive, the alive count is the length. -/
theorem aliveCount_all_alive {ms : List CM} (h : ∀ m ∈ ms, m.alive = true) :
    aliveCount ms = ms.length := by
  simp [aliveCount, List.filter_eq_self.mpr h]

/-- Environment degradation never increases the number of live
multiplexes. -/
theorem degrades_aliveCount {ms ms2 : List CM} (hd : Degrades ms ms2) :
    aliveCount ms2 ≤ aliveCount ms := by
  simp only [aliveCount, ← List.countP_eq_length_filter]
  induction hd with
  | nil => exact Nat.le_refl _
  | @cons a b l1 l2 hab htail ih =>
      simp only [List.countP_cons]
      by_cases hb : b.alive = true
      · have ha := hab hb
        simp only [ha, hb, if_pos rfl]
        omega
      · have hb2 : b.alive = false := by
          cases hbv : b.alive
          · rfl
          · exact absurd hbv hb
        simp only [hb2]
        have : (false = true) = False := by simp
        simp only [this, if_false]
        by_cases ha : a.alive = true
        · simp only [ha, if_pos rfl]
          omega
        · have ha2 : a.alive = false := by
            cases hav : a.alive
            · rfl
            · exact absurd hav ha
          simp only [ha2, this, if_false]
          omega

/- ## Claim theorems: plex connector -/

/-- Claim C3: along every sequence of connect calls, keep-alive passes and
environment failures, the number of live multiplexes pooled for an identity
never exceeds connections_per_remote: connect prunes the dead ones first
and dials only when the remaining count is strictly below the cap. -/
theorem pool_alive_bounded {cap : Nat} {ms : List CM} (h : PoolReach cap ms) :
    aliveCount ms ≤ cap := by
  induction h with
  | init => exact Nat.zero_le cap
  | @connect dialOk ms0 h ih =>
      have hall : ∀ m ∈ ms0.filter (fun m => m.alive), m.alive = true :=
        fun m hm => (List.mem_filter.mp hm).2
      by_cases h1 : (ms0.filter (fun m => m.alive)).length < cap
      · cases dialOk with
        | false =>
            have heq : afterConnect cap false ms0 = ms0.filter (fun m => m.alive) := by
              simp [afterConnect, plexConnect, h1]
            rw [heq, aliveCount_filter]
            exact ih
        | true =>
            have heq : afterConnect cap true ms0
                = ms0.filter (fun m => m.alive) ++ [CM.connectPlex newMultiplex] := by
              simp [afterConnect, plexConnect, h1]
            rw [heq]
            have hall2 : ∀ m ∈ ms0.filter (fun m => m.alive) ++ [CM.connectPlex newMultiplex],
                m.alive = true := by
              intro m hm
              rcases List.mem_append.mp hm with hm | hm
              · exact hall m hm
              · have : m = CM.connectPlex newMultiplex := by simpa using hm
                rw [this]
                rfl
            rw [aliveCount_all_alive hall2]
            simp only [List.length_append, List.length_singleton]
            omega
      · cases hmk : minByKey (fun m => m.plexCount) (ms0.filter (fun m => m.alive)) with
        | none =>
            have heq : afterConnect cap dialOk ms0 = ms0.filter (fun m => m.alive) := by
              cases dialOk <;> simp [afterConnect, plexConnect, h1, hmk]
            rw [heq, aliveCount_filter]
            exact ih
        | some r =>
            have heq : afterConnect cap dialOk ms0
                = (ms0.filter (fun m => m.alive)).set r.1 (CM.connectPlex r.2) := by
              cases dialOk <;> simp [afterConnect, plexConnect, h1, hmk]
            obtain ⟨hrlt, hrget, _, _⟩ := minByKey_first_min _ _ _ hmk
            have hmem : r.2 ∈ ms0.filter (fun m => m.alive) := by
              rw [← hrget]
              simp only [List.get_eq_getElem]
              exact List.getElem_mem hrlt
            have halive : (CM.connectPlex r.2).alive = true := by
              have := hall r.2 hmem
              simpa [CM.connectPlex] using this
            have hall3 : ∀ m ∈ (ms0.filter (fun m => m.alive)).set r.1 (CM.connectPlex r.2),
                m.alive = true := by
              intro m hm
              rcases List.mem_or_eq_of_mem_set hm with hm | hm
              · exact hall m hm
              · rw [hm]
                exact halive
            rw [heq, aliveCount_all_alive hall3, List.length_set]
            exact ih
  | @tick ms0 h ih =>
      have hall : ∀ m ∈ tickList ms0, m.alive = true := by
        intro m hm
        simp only [tickList, List.mem_map] at hm
        obtain ⟨m0, hm0, hme⟩ := hm
        have := (List.mem_filter.mp hm0).2
        rw [← hme]
        simpa [CM.ping] using this
      rw [aliveCount_all_alive hall]
      simpa [tickList, aliveCount] using ih
  | @die ms0 ms2 h hd ih => exact Nat.le_trans (degrades_aliveCount hd) ih

/-- Claim C3, witnessed on the pool state reached by one successful connect
under cap 8. -/
theorem pool_alive_bounded_witness :
    PoolReach 8 (afterConnect 8 true []) ∧ aliveCount (afterConnect 8 true []) ≤ 8 :=
  ⟨PoolReach.connect true PoolReach.init,
    pool_alive_bounded (PoolReach.connect true PoolReach.init)⟩

/-- Claim C4: when, after pruning, the per-identity list already holds
connections_per_remote live multiplexes, connect does not dial: it returns
a plex from the multiplex with the smallest plex count, the earliest such
multiplex on ties, raising the count of that multiplex in place. -/
theorem plex_connect_at_capacity (cap : Nat) (dialOk : Bool) (ms : List CM)
    (hpos : 0 < cap) (hcap : cap ≤ (ms.filter (fun m => m.alive)).length) :
    ∃ r : Nat × CM,
      minByKey (fun m => m.plexCount) (ms.filter (fun m => m.alive)) = some r ∧
      FirstMinAt (fun m => m.plexCount) (ms.filter (fun m => m.alive)) r ∧
      plexConnect cap dialOk ms
        = .ok (CM.connectPlex r.2)
            ((ms.filter (fun m => m.alive)).set r.1 (CM.connectPlex r.2)) false := by
  have hnl : ¬ (ms.filter (fun m => m.alive)).length < cap := Nat.not_lt.mpr hcap
  cases hp : ms.filter (fun m => m.alive) with
  | nil =>
      exfalso
      rw [hp] at hcap
      simp at hcap
      omega
  | cons x xs =>
      rw [hp] at hnl
      refine ⟨minByAux (fun m => m.plexCount) xs 1 (0, x), ?_, ?_, ?_⟩
      · rfl
      · exact minByKey_first_min _ _ _ rfl
      · simp only [plexConnect, hp]
        rw [if_neg hnl]
        rfl

/-- Claim C4, witnessed: cap 2, three live multiplexes with plex counts 5,
3 and 3, so the plex comes from the earlier of the two tied at 3. -/
theorem plex_connect_at_capacity_witness :
    0 < 2 ∧ 2 ≤ (msW.filter (fun m => m.alive)).length ∧
    ∃ r : Nat × CM,
      minByKey (fun m => m.plexCount) (msW.filter (fun m => m.alive)) = some r ∧
      FirstMinAt (fun m => m.plexCount) (msW.filter (fun m => m.alive)) r ∧
      plexConnect 2 true msW
        = .ok (CM.connectPlex r.2)
            ((msW.filter (fun m => m.alive)).set r.1 (CM.connectPlex r.2)) false :=
  ⟨by decide, by decide, plex_connect_at_capacity 2 true msW (by decide) (by decide)⟩

/-- Claim C6: on a keep-alive tick over a quiescent pool, every
per-identity list keeps exactly its live multiplexes with a Ping emitted on
each, an identity stays in the pool exactly when a live multiplex survived,
and every identity whose list came out empty is removed. -/
theorem keep_alive_tick_spec (locked : Identity → Bool)
    (pool : List (Identity × List CM)) (hq : ∀ i, locked i = false) :
    (∀ ms m, m ∈ tickList ms ↔ ∃ m0 ∈ ms, m0.alive = true ∧ CM.ping m0 = m) ∧
    (∀ i ms, (i, ms) ∈ pool → tickList ms ≠ [] →
      (i, tickList ms) ∈ keepAliveTick locked pool) ∧
    (∀ e ∈ keepAliveTick locked pool,
      ∃ ms, (e.1, ms) ∈ pool ∧ e.2 = tickList ms ∧ e.2 ≠ []) := by
  refine ⟨?_, ?_, ?_⟩
  · intro ms m
    simp only [tickList, List.mem_map, List.mem_filter]
    constructor
    · rintro ⟨m0, ⟨hm0, ha⟩, hme⟩
      exact ⟨m0, hm0, ha, hme⟩
    · rintro ⟨m0, hm0, ha, hme⟩
      exact ⟨m0, ⟨hm0, ha⟩, hme⟩
  · intro i ms hmem hne
    unfold keepAliveTick poolPrune
    refine List.mem_filter.mpr ⟨?_, ?_⟩
    · exact List.mem_map.mpr ⟨(i, ms), hmem, rfl⟩
    · simp [hq i, hne]
  · intro e he
    unfold keepAliveTick poolPrune at he
    obtain ⟨hmem, hcond⟩ := List.mem_filter.mp he
    obtain ⟨p, hp, hpe⟩ := List.mem_map.mp hmem
    subst hpe
    refine ⟨p.2, hp, rfl, ?_⟩
    intro hnil
    rw [hq p.1] at hcond
    simp only [Bool.false_or] at hcond
    have hnil2 : tickList p.2 = [] := hnil
    rw [hnil2] at hcond
    simp at hcond

/-- Claim C6, witnessed: a quiescent pool with one identity keeping a live
multiplex and one identity with only a dead multiplex. -/
theorem keep_alive_tick_spec_witness :
    (∀ i : Identity, noLock i = false) ∧
    ((∀ ms m, m ∈ tickList ms ↔ ∃ m0 ∈ ms, m0.alive = true ∧ CM.ping m0 = m) ∧
     (∀ i ms, (i, ms) ∈ poolW → tickList ms ≠ [] →
       (i, tickList ms) ∈ keepAliveTick noLock poolW) ∧
     (∀ e ∈ keepAliveTick noLock poolW,
       ∃ ms, (e.1, ms) ∈ poolW ∧ e.2 = tickList ms ∧ e.2 ≠ [])) :=
  ⟨fun _ => rfl, keep_alive_tick_spec noLock poolW (fun _ => rfl)⟩

end Talk
